import Mathlib

/-!
Verification of the status-effect engine of `src/src/components/status.rs`
(rustarok): the per-character `Statuses` container (a fixed array of 32
optional effect slots with a reserved main region and a high-water mark
`first_free_index`), its mutation operations, its per-tick update pass and
its aggregation queries.

Shallow embedding conventions:
* machine floats (`f32` times and colors) are embedded as rationals; all the
  claims under verification concern only ordering, `max` and exact
  multiplication of dyadic constants, which the rational embedding reflects
  exactly;
* `ElapsedTime`, `Entity`, `AttackComponent`/`AttackType` and the trait
  objects behind `Box<dyn Status>` live in crate files outside the provided
  source tree, so they are modelled from the spec (each such definition says
  so in its doc comment);
* the `cached_modifier_collector` field of `Statuses` is an allocation-reuse
  buffer for `calc_attributes` (spec section 3 calls it an optimization, not
  a correctness requirement); no claim touches it and it is omitted from the
  record.
-/

/-- Modelled from the spec: entity/world handles (`specs::Entity`) are opaque
identifiers used only for attribution and equality, embedded as naturals. -/
abbrev Entity := Nat

/-- Modelled from the spec: `ElapsedTime` (the simulation clock, an `f32`
newtype declared in the crate root which is outside the provided sources),
embedded as a rational number. -/
abbrev Time := ℚ

/-- Modelled from the spec: `ElapsedTime::add_seconds` shifts a time stamp
forward, as in `next_tick = started + 1s`. -/
def Time.add_seconds (a : Time) (s : ℚ) : Time := a + s

/-- Modelled from the spec: `ElapsedTime::is_earlier_than` is non-strict
`a <= b`; the spec describes the poison tick as removing the instance "once
`until <= now`" and firing damage when "`next_tick <= now`", and both sites
call this method. -/
def Time.is_earlier_than (a b : Time) : Bool := decide (a ≤ b)

/-- Modelled from the spec: `ElapsedTime::is_later_than` is strict `a > b`,
the plain meaning of the name; the spec's tie rule for the remaining-time
query ("ties keep the earlier-found candidate") also requires strictness. -/
def Time.is_later_than (a b : Time) : Bool := decide (b < a)

/-- Modelled from the spec: `ElapsedTime::percentage_between` is the fraction
of the interval `[start, stop]` elapsed at `now` ("fraction-elapsed"). -/
def Time.percentage_between (now start stop : Time) : ℚ :=
  (now - start) / (stop - start)

/-- Render tint: the `[f32; 4]` RGBA color of `get_render_color`, with the
channels embedded as rationals. -/
structure Color where
  r : ℚ
  g : ℚ
  b : ℚ
  a : ℚ
deriving DecidableEq

/-- Opaque white, the starting accumulator of `calc_render_color`. -/
def Color.white : Color := ⟨1, 1, 1, 1⟩

/-- Component-wise product across all four channels, one loop iteration of
`for i in 0..4 \x7b ret[i] *= status_color[i]; \x7d`. -/
def Color.mul (x y : Color) : Color := ⟨x.r * y.r, x.g * y.g, x.b * y.b, x.a * y.a⟩

/-- Effect classification from `status.rs`: `StatusType`. -/
inductive StatusType where
  | Supportive
  | Harmful
deriving DecidableEq

/-- Modelled from the spec: the damage-event kind pushed by a ticking poison
(`AttackType::Poison(30)`); the enum is declared in `components/mod.rs`,
outside the provided sources, and only the `Poison` variant is exercised
here. -/
inductive AttackType where
  | Poison (dmg : Int)
deriving DecidableEq

/-- Modelled from the spec: a damage event (`AttackComponent`) carrying the
attacking and attacked entities; declared outside the provided sources. -/
structure AttackComponent where
  src_entity : Entity
  dst_entity : Entity
  typ : AttackType
deriving DecidableEq

/-- Modelled from the spec: the slice of `SystemVariables` the status code
touches — the current simulation time and the sink (`attacks` vector) into
which ticking effects push follow-on damage events. -/
structure SystemVars where
  time : Time
  attacks : List AttackComponent
deriving DecidableEq

/-- Per-effect tick verdict from `status.rs`: `StatusUpdateResult`. -/
inductive StatusUpdateResult where
  | RemoveIt
  | KeepIt
deriving DecidableEq

/-- An active effect instance. `mounted` embeds `MountedStatus`, `poison`
embeds `PoisonStatus` with its four fields. `secondary` is modelled from the
spec: externally defined secondary effects are arbitrary implementors of the
`Status` trait, represented here by the capability data the verified
operations consume — a classification, a constant render tint, a constant
completion report and a flag saying whether the next `update` call returns
`RemoveIt`. -/
inductive Status where
  | mounted
  | poison (poison_caster_entity_id : Entity) (started untl next_damage_at : Time)
  | secondary (typ : StatusType) (color : Color) (completion : Option (Time × ℚ))
      (removeOnTick : Bool)
deriving DecidableEq

/-- Classification: `MountedStatus::typ` is `Supportive`, `PoisonStatus::typ`
is `Harmful`, a secondary effect reports its own. -/
def Status.typ : Status → StatusType
  | .mounted => .Supportive
  | .poison _ _ _ _ => .Harmful
  | .secondary t _ _ _ => t

/-- Render tint: `MountedStatus` returns white, `PoisonStatus` returns
`[0.5, 1.0, 0.5, 1.0]`, a secondary effect returns its own. -/
def Status.get_render_color : Status → Color
  | .mounted => Color.white
  | .poison _ _ _ _ => ⟨1/2, 1, 1/2, 1⟩
  | .secondary _ c _ _ => c

/-- Completion report: `MountedStatus` returns `None`, `PoisonStatus` returns
`Some((until, now.percentage_between(started, until)))`, a secondary effect
returns its own. -/
def Status.get_status_completion_percent : Status → Time → Option (Time × ℚ)
  | .mounted, _ => none
  | .poison _ s u _, now => some (u, Time.percentage_between now s u)
  | .secondary _ _ comp _, _ => comp

/-- Per-effect `update`. `MountedStatus` always keeps itself unchanged.
`PoisonStatus` removes itself once `until.is_earlier_than(now)`, otherwise
pushes one `AttackType::Poison(30)` damage event and advances
`next_damage_at` to `now + 1s` when `next_damage_at.is_earlier_than(now)`.
A secondary effect returns `RemoveIt` exactly when its flag says so. -/
def Status.update : Status → Entity → SystemVars → StatusUpdateResult × Status × SystemVars
  | .mounted, _, sv => (.KeepIt, .mounted, sv)
  | .poison c s u n, selfId, sv =>
      if Time.is_earlier_than u sv.time then (.RemoveIt, .poison c s u n, sv)
      else
        if Time.is_earlier_than n sv.time then
          (.KeepIt, .poison c s u (Time.add_seconds sv.time 1),
            { sv with attacks := sv.attacks ++ [⟨c, selfId, .Poison 30⟩] })
        else (.KeepIt, .poison c s u n, sv)
  | .secondary t c comp rm, _, sv =>
      (if rm then .RemoveIt else .KeepIt, .secondary t c comp rm, sv)

/-- The slot-array size: `STATUS_ARRAY_SIZE` in `status.rs`. -/
abbrev STATUS_ARRAY_SIZE : Nat := 32

/-- The main-region size: `MAINSTATUSES_COUNT`, generated by
`#[derive(EnumCount)]` on the three-variant `MainStatuses` enum. -/
abbrev MAINSTATUSES_COUNT : Nat := 3

/-- Main-status kinds with reserved slots, in declaration order. -/
inductive MainStatuses where
  | Mounted
  | Stun
  | Poison
deriving DecidableEq

/-- Ordinal of a main-status kind (`MainStatuses as usize`): the reserved
slot index. -/
def MainStatuses.ord : MainStatuses → Nat
  | .Mounted => 0
  | .Stun => 1
  | .Poison => 2

/-- The slot array `[Option<Arc<Mutex<Box<dyn Status>>>>; STATUS_ARRAY_SIZE]`. -/
abbrev Slots := Fin STATUS_ARRAY_SIZE → Option Status

/-- Array read at a natural index (reads the code performs are always in
bounds; out-of-range reads are given the value `none` so that loop lemmas can
be stated uniformly). -/
def getSlot (sts : Slots) (i : Nat) : Option Status :=
  if h : i < STATUS_ARRAY_SIZE then sts ⟨i, h⟩ else none

/-- Array write at a natural index. -/
def setSlot (sts : Slots) (i : Nat) (v : Option Status) : Slots :=
  fun j => if j.val = i then v else sts j

/-- The per-character container `Statuses`: the slot array and the high-water
mark `first_free_index`. -/
structure Statuses where
  statuses : Slots
  first_free_index : Nat

/-- `Statuses::new`: all slots empty, mark at the main-region size. -/
def Statuses.new : Statuses :=
  { statuses := fun _ => none, first_free_index := MAINSTATUSES_COUNT }

/-- `Statuses::is_mounted`: presence check on the reserved Mounted slot. -/
def Statuses.is_mounted (s : Statuses) : Bool :=
  (getSlot s.statuses MainStatuses.Mounted.ord).isSome

/-- `Statuses::is_stunned`: presence check on the reserved Stun slot. -/
def Statuses.is_stunned (s : Statuses) : Bool :=
  (getSlot s.statuses MainStatuses.Stun.ord).isSome

/-- `Statuses::switch_mounted`: writes `Some(MountedStatus)` into the Mounted
slot when it is empty and `None` when it is occupied. -/
def Statuses.switch_mounted (s : Statuses) : Statuses :=
  let is_mounted := (getSlot s.statuses MainStatuses.Mounted.ord).isSome
  let value : Option Status := if !is_mounted then some Status.mounted else none
  { s with statuses := setSlot s.statuses MainStatuses.Mounted.ord value }

/-- `Statuses::add`: rejected (container returned unchanged, after a
diagnostic log in the original) when `first_free_index >= STATUS_ARRAY_SIZE`;
otherwise stores the handle at the mark and advances the mark. -/
def Statuses.add (s : Statuses) (st : Status) : Statuses :=
  if s.first_free_index ≥ STATUS_ARRAY_SIZE then s
  else
    { s with
      statuses := setSlot s.statuses s.first_free_index (some st),
      first_free_index := s.first_free_index + 1 }

/-- The index sequence of `iter().take(first_free_index)` over the 32-slot
array. -/
def idxs (k : Nat) : List Nat := List.range (min k STATUS_ARRAY_SIZE)

/-- Loop body of `Statuses::remove_all`: clears each visited slot. -/
def clearLoop : List Nat → Slots → Slots
  | [], sts => sts
  | i :: rest, sts => clearLoop rest (setSlot sts i none)

/-- `Statuses::remove_all`: clears every slot below the mark and resets the
mark to the main-region size. -/
def Statuses.remove_all (s : Statuses) : Statuses :=
  { statuses := clearLoop (idxs s.first_free_index) s.statuses,
    first_free_index := MAINSTATUSES_COUNT }

/-- The `should_remove` test of `Statuses::remove`:
`arc.as_ref().map(|it| it.typ() == status_type).unwrap_or(false)`. -/
def statusMatchesTyp (o : Option Status) (c : StatusType) : Bool :=
  (o.map (fun st => decide (st.typ = c))).getD false

/-- Loop body of `Statuses::remove`: clears each visited slot whose effect's
classification matches. -/
def removeLoop (c : StatusType) : List Nat → Slots → Slots
  | [], sts => sts
  | i :: rest, sts =>
      if statusMatchesTyp (getSlot sts i) c then removeLoop c rest (setSlot sts i none)
      else removeLoop c rest sts

/-- `Statuses::remove`: scans every slot below the mark (main slots included)
and clears the matching ones; the mark is not touched. -/
def Statuses.remove (s : Statuses) (status_type : StatusType) : Statuses :=
  { s with statuses := removeLoop status_type (idxs s.first_free_index) s.statuses }

/-- `Statuses::remove_main_status`: clears the reserved slot of the kind. -/
def Statuses.remove_main_status (s : Statuses) (m : MainStatuses) : Statuses :=
  { s with statuses := setSlot s.statuses m.ord none }

/-- `Statuses::add_poison`: reads the reserved Poison slot; when it holds a
poison the merged expiry is `current.until.max(until)` (the original recovers
the concrete `PoisonStatus` through the unsafe `hack_cast`, which is only
ever exercised with a poison in the slot; a non-poison occupant is given the
incoming `until`), then overwrites the slot with a fresh instance carrying
the new caster, the new `started`, the merged expiry and
`next_damage_at = started.add_seconds(1.0)`. -/
def Statuses.add_poison (s : Statuses) (poison_caster_entity_id : Entity)
    (started untl : Time) : Statuses :=
  let new_until :=
    match getSlot s.statuses MainStatuses.Poison.ord with
    | some (Status.poison _ _ u _) => max u untl
    | some _ => untl
    | none => untl
  { s with
    statuses := setSlot s.statuses MainStatuses.Poison.ord
      (some (Status.poison poison_caster_entity_id started new_until
        (Time.add_seconds started 1))) }

/-- The active effects below the mark, in slot order: the sequence
`iter().take(first_free_index).filter(|it| it.is_some())` yields. -/
def activeList (s : Statuses) : List Status :=
  (idxs s.first_free_index).filterMap (fun i => getSlot s.statuses i)

/-- `Statuses::calc_render_color`: starts at opaque white and multiplies in
every active effect's tint component-wise. -/
def Statuses.calc_render_color (s : Statuses) : Color :=
  (activeList s).foldl (fun ret st => Color.mul ret (Status.get_render_color st)) Color.white

/-- One fold step of `calc_largest_remaining_status_time_percent`: replaces
the current candidate by the new report when
`current_ends_at.is_later_than(status_ends_at)`. -/
def selStep (now : Time) (ret : Option (Time × ℚ)) (st : Status) : Option (Time × ℚ) :=
  match Status.get_status_completion_percent st now with
  | some (status_ends_at, p) =>
    match ret with
    | some (current_ends_at, q) =>
        if Time.is_later_than current_ends_at status_ends_at then some (status_ends_at, p)
        else some (current_ends_at, q)
    | none => some (status_ends_at, p)
  | none => ret

/-- `Statuses::calc_largest_remaining_status_time_percent`: folds `selStep`
over the active effects and returns the fraction component of the surviving
candidate. -/
def Statuses.calc_largest_remaining_status_time_percent (s : Statuses) (now : Time) :
    Option ℚ :=
  ((activeList s).foldl (selStep now) none).map Prod.snd

/-- Loop body of `Statuses::update`: visits each index in order, calls the
occupant's per-effect `update` threading `system_vars` through, clears the
slot and raises the changed flag on `RemoveIt`, and stores the mutated effect
back on `KeepIt`. -/
def updateLoop (selfId : Entity) :
    List Nat → Slots → SystemVars → Bool → Slots × SystemVars × Bool
  | [], sts, sv, ch => (sts, sv, ch)
  | i :: rest, sts, sv, ch =>
    match getSlot sts i with
    | none => updateLoop selfId rest sts sv ch
    | some st =>
      match Status.update st selfId sv with
      | (StatusUpdateResult.RemoveIt, _, sv2) =>
          updateLoop selfId rest (setSlot sts i none) sv2 true
      | (StatusUpdateResult.KeepIt, st2, sv2) =>
          updateLoop selfId rest (setSlot sts i (some st2)) sv2 ch

/-- The backward compaction scan after the update pass: decrements the mark
while it exceeds the main-region size and the slot just below it is empty. -/
def shrinkFfi (sts : Slots) : Nat → Nat
  | 0 => 0
  | n + 1 =>
      if MAINSTATUSES_COUNT < n + 1 ∧ getSlot sts n = none then shrinkFfi sts n
      else n + 1

/-- `Statuses::update`: the tick pass over every slot below the mark followed
by the backward compaction scan; returns the container, the threaded
`system_vars` and the changed flag. -/
def Statuses.update (s : Statuses) (selfId : Entity) (sv : SystemVars) :
    Statuses × SystemVars × Bool :=
  let r := updateLoop selfId (idxs s.first_free_index) s.statuses sv false
  ({ statuses := r.1, first_free_index := shrinkFfi r.1 s.first_free_index }, r.2.1, r.2.2)

/-- The container invariant of spec section 3: the high-water mark lies
between the main-region size and the slot limit, and every slot at or beyond
the mark is empty. -/
abbrev StatusesInvariant (s : Statuses) : Prop :=
  MAINSTATUSES_COUNT ≤ s.first_free_index ∧ s.first_free_index ≤ STATUS_ARRAY_SIZE ∧
    ∀ i : Fin STATUS_ARRAY_SIZE, s.first_free_index ≤ i.val → s.statuses i = none

/-- The catalogue of container mutations quantified over by the invariant
claim. -/
inductive StatusOp where
  | add (st : Status)
  | add_poison (caster : Entity) (started untl : Time)
  | switch_mounted
  | remove (c : StatusType)
  | remove_main (m : MainStatuses)
  | remove_all
  | tick (selfId : Entity) (sv : SystemVars)

/-- Interpretation of one container mutation. -/
def applyStatusOp (s : Statuses) : StatusOp → Statuses
  | .add st => Statuses.add s st
  | .add_poison c a b => Statuses.add_poison s c a b
  | .switch_mounted => Statuses.switch_mounted s
  | .remove c => Statuses.remove s c
  | .remove_main m => Statuses.remove_main_status s m
  | .remove_all => Statuses.remove_all s
  | .tick selfId sv => (Statuses.update s selfId sv).1

/-- Add/clear operations for the counting property of spec section 8. -/
inductive AROp where
  | add (st : Status)
  | remove_all

/-- Interpretation of one add/clear operation. -/
def applyAR (s : Statuses) : AROp → Statuses
  | .add st => Statuses.add s st
  | .remove_all => Statuses.remove_all s

/-- Runs a sequence of add/clear operations left to right. -/
def applySeq (s : Statuses) : List AROp → Statuses
  | [] => s
  | op :: rest => applySeq (applyAR s op) rest

/-- Capacity discipline: every `add` in the sequence happens while the mark
is below the slot limit. -/
def capOk : Statuses → List AROp → Bool
  | _, [] => true
  | s, AROp.add st :: rest =>
      decide (s.first_free_index < STATUS_ARRAY_SIZE) && capOk (Statuses.add s st) rest
  | s, AROp.remove_all :: rest => capOk (Statuses.remove_all s) rest

/-- Number of occupied secondary slots. -/
def secondaryCount (s : Statuses) : Nat :=
  (Finset.filter
    (fun i : Fin STATUS_ARRAY_SIZE =>
      MAINSTATUSES_COUNT ≤ i.val ∧ (s.statuses i).isSome = true)
    Finset.univ).card

/-- Net adds minus removes over a sequence: each `add` raises the running
count by one, each `remove_all` resets it to zero. -/
def netCount (n : Nat) : List AROp → Nat
  | [] => n
  | AROp.add _ :: rest => netCount (n + 1) rest
  | AROp.remove_all :: rest => netCount 0 rest

/-- The projection of a per-effect `update` call that is independent of the
threaded `system_vars` sink: the verdict and the successor effect, computed
from the current time alone. -/
def tickPure (st : Status) (selfId : Entity) (now : Time) : StatusUpdateResult × Status :=
  ((Status.update st selfId { time := now, attacks := [] }).1,
   (Status.update st selfId { time := now, attacks := [] }).2.1)

/-- Net effect of the tick pass on one slot: an empty slot stays empty, an
occupied slot is cleared on a `RemoveIt` verdict and keeps the mutated effect
on `KeepIt`. -/
def tickSlot (selfId : Entity) (now : Time) (o : Option Status) : Option Status :=
  match o with
  | none => none
  | some st =>
    match tickPure st selfId now with
    | (StatusUpdateResult.RemoveIt, _) => none
    | (StatusUpdateResult.KeepIt, st2) => some st2

/-- Whether the tick pass clears one slot. -/
def slotRemoved (selfId : Entity) (now : Time) (o : Option Status) : Bool :=
  match o with
  | none => false
  | some st => decide ((tickPure st selfId now).1 = StatusUpdateResult.RemoveIt)

/-! ### Slot-access lemmas -/

/-- Reading the slot just written. -/
theorem getSlot_setSlot_self (sts : Slots) (i : Nat) (v : Option Status)
    (h : i < STATUS_ARRAY_SIZE) : getSlot (setSlot sts i v) i = v := by
  simp [getSlot, setSlot, h]

/-- Reading a slot other than the one written. -/
theorem getSlot_setSlot_ne (sts : Slots) (i j : Nat) (v : Option Status) (h : j ≠ i) :
    getSlot (setSlot sts i v) j = getSlot sts j := by
  unfold getSlot setSlot
  split
  · simp [h]
  · rfl

/-- Pointwise view of a slot write at a `Fin` index. -/
theorem setSlot_apply (sts : Slots) (i : Nat) (v : Option Status)
    (j : Fin STATUS_ARRAY_SIZE) :
    setSlot sts i v j = if j.val = i then v else sts j := rfl

/-- A successful read pins the index below the array size. -/
theorem getSlot_lt_of_isSome (sts : Slots) (i : Nat) (h : (getSlot sts i).isSome = true) :
    i < STATUS_ARRAY_SIZE := by
  by_contra hge
  simp [getSlot, hge] at h

/-- Reading an in-range index is just applying the slot function. -/
theorem getSlot_fin (sts : Slots) (j : Fin STATUS_ARRAY_SIZE) :
    getSlot sts j.val = sts j := by
  simp [getSlot, j.isLt]

/-- Membership in the index sequence of a `take` loop. -/
theorem mem_idxs (k i : Nat) : i ∈ idxs k ↔ i < k ∧ i < STATUS_ARRAY_SIZE := by
  simp [idxs, List.mem_range, Nat.lt_min]

/-- The index sequence of a `take` loop has no duplicates. -/
theorem idxs_nodup (k : Nat) : (idxs k).Nodup := List.nodup_range _

/-! ### Characterization of the clearing loops -/

/-- `clearLoop` empties exactly the visited slots. -/
theorem clearLoop_spec (l : List Nat) :
    ∀ (sts : Slots) (j : Fin STATUS_ARRAY_SIZE),
      clearLoop l sts j = if j.val ∈ l then none else sts j := by
  induction l with
  | nil => intro sts j; simp [clearLoop]
  | cons i rest ih =>
    intro sts j
    by_cases hj : j.val ∈ rest
    · simp [clearLoop, ih, hj, List.mem_cons]
    · by_cases hji : j.val = i
      · simp [clearLoop, ih, hj, hji, setSlot_apply]
      · simp [clearLoop, ih, hj, hji, setSlot_apply, List.mem_cons]

/-- `removeLoop` empties exactly the visited slots whose occupant matches the
classification, reading each slot's original content (no duplicate visits). -/
theorem removeLoop_spec (c : StatusType) (l : List Nat) :
    l.Nodup → ∀ (sts : Slots) (j : Fin STATUS_ARRAY_SIZE),
      removeLoop c l sts j =
        if j.val ∈ l ∧ statusMatchesTyp (sts j) c = true then none else sts j := by
  induction l with
  | nil => intro _ sts j; simp [removeLoop]
  | cons i rest ih =>
    intro hnd sts j
    have hi : i ∉ rest := (List.nodup_cons.mp hnd).1
    have hndr : rest.Nodup := (List.nodup_cons.mp hnd).2
    by_cases hmatch : statusMatchesTyp (getSlot sts i) c = true
    · rw [removeLoop, if_pos hmatch, ih hndr]
      by_cases hj : j.val ∈ rest
      · have hji : j.val ≠ i := fun h => hi (h ▸ hj)
        simp [setSlot_apply, hji, hj, List.mem_cons]
      · by_cases hji : j.val = i
        · have hsts : sts j = getSlot sts i := by
            rw [← hji, getSlot_fin]
          simp [setSlot_apply, hji, hj, List.mem_cons, hsts, hmatch]
        · simp [setSlot_apply, hji, hj, List.mem_cons]
    · rw [removeLoop, if_neg hmatch, ih hndr]
      by_cases hj : j.val ∈ rest
      · simp [hj, List.mem_cons]
      · by_cases hji : j.val = i
        · have hsts : sts j = getSlot sts i := by
            rw [← hji, getSlot_fin]
          have : ¬ statusMatchesTyp (sts j) c = true := by rw [hsts]; exact hmatch
          simp [hj, hji, List.mem_cons, this]
        · simp [hj, hji, List.mem_cons]

/-! ### Characterization of the update pass -/

/-- Relating an in-range natural read to the slot function. -/
theorem getSlot_eq_of_val (sts : Slots) (j : Fin STATUS_ARRAY_SIZE) (i : Nat)
    (h : j.val = i) : getSlot sts i = sts j := by
  subst h
  simp [getSlot, j.isLt, Fin.eta]

/-- Pointwise-equal predicates give equal `any` scans. -/
theorem list_any_congr {α : Type} (f g : α → Bool) (l : List α)
    (h : ∀ x ∈ l, f x = g x) : l.any f = l.any g := by
  induction l with
  | nil => rfl
  | cons x xs ih =>
    simp only [List.any_cons, h x (List.mem_cons_self x xs)]
    rw [ih (fun y hy => h y (List.mem_cons_of_mem x hy))]

/-- The verdict of a per-effect `update` depends only on the current time. -/
theorem update_fst (st : Status) (selfId : Entity) (sv : SystemVars) :
    (Status.update st selfId sv).1 = (tickPure st selfId sv.time).1 := by
  cases st with
  | mounted => rfl
  | poison c s u n =>
    by_cases h1 : Time.is_earlier_than u sv.time
    · simp [Status.update, tickPure, h1]
    · by_cases h2 : Time.is_earlier_than n sv.time <;>
        simp [Status.update, tickPure, h1, h2]
  | secondary t col comp rm => cases rm <;> rfl

/-- The successor effect of a per-effect `update` depends only on the current
time. -/
theorem update_snd (st : Status) (selfId : Entity) (sv : SystemVars) :
    (Status.update st selfId sv).2.1 = (tickPure st selfId sv.time).2 := by
  cases st with
  | mounted => rfl
  | poison c s u n =>
    by_cases h1 : Time.is_earlier_than u sv.time
    · simp [Status.update, tickPure, h1]
    · by_cases h2 : Time.is_earlier_than n sv.time <;>
        simp [Status.update, tickPure, h1, h2]
  | secondary t col comp rm => cases rm <;> rfl

/-- A per-effect `update` never changes the clock it is handed. -/
theorem update_time (st : Status) (selfId : Entity) (sv : SystemVars) :
    (Status.update st selfId sv).2.2.time = sv.time := by
  cases st with
  | mounted => rfl
  | poison c s u n =>
    by_cases h1 : Time.is_earlier_than u sv.time
    · simp [Status.update, h1]
    · by_cases h2 : Time.is_earlier_than n sv.time <;> simp [Status.update, h1, h2]
  | secondary t col comp rm => rfl

/-- Characterization of the update loop over a duplicate-free index sequence:
the clock is unchanged, the changed flag records whether a visited slot got a
`RemoveIt` verdict, and each slot ends as `tickSlot` of its original content
when visited and untouched otherwise. -/
theorem updateLoop_spec (selfId : Entity) (l : List Nat) :
    l.Nodup → ∀ (sts : Slots) (sv : SystemVars) (ch : Bool),
      (updateLoop selfId l sts sv ch).2.1.time = sv.time ∧
      (updateLoop selfId l sts sv ch).2.2 =
        (ch || l.any (fun i => slotRemoved selfId sv.time (getSlot sts i))) ∧
      ∀ j : Fin STATUS_ARRAY_SIZE,
        (updateLoop selfId l sts sv ch).1 j =
          if j.val ∈ l then tickSlot selfId sv.time (sts j) else sts j := by
  induction l with
  | nil =>
    intro _ sts sv ch
    refine ⟨rfl, by simp [updateLoop], ?_⟩
    intro j; simp [updateLoop]
  | cons i rest ih =>
    intro hnd sts sv ch
    have hi : i ∉ rest := (List.nodup_cons.mp hnd).1
    have hndr : rest.Nodup := (List.nodup_cons.mp hnd).2
    cases hslot : getSlot sts i with
    | none =>
      have hred : updateLoop selfId (i :: rest) sts sv ch =
          updateLoop selfId rest sts sv ch := by
        rw [updateLoop, hslot]
      obtain ⟨iht, ihc, ihs⟩ := ih hndr sts sv ch
      rw [hred]
      refine ⟨iht, ?_, ?_⟩
      · rw [ihc]
        simp only [List.any_cons, slotRemoved, hslot]
        simp
      · intro j
        rw [ihs j]
        by_cases hj : j.val ∈ rest
        · simp [hj, List.mem_cons]
        · by_cases hji : j.val = i
          · have hsts : sts j = none :=
              ((getSlot_eq_of_val sts j i hji).symm).trans hslot
            simp [hj, hji, List.mem_cons, hsts, tickSlot]
          · simp [hj, hji, List.mem_cons]
    | some st =>
      have hisome : (getSlot sts i).isSome = true := by rw [hslot]; rfl
      have hi32 : i < STATUS_ARRAY_SIZE := getSlot_lt_of_isSome sts i hisome
      have hstsj : sts ⟨i, hi32⟩ = some st :=
        ((getSlot_eq_of_val sts ⟨i, hi32⟩ i rfl).symm).trans hslot
      rcases hu : Status.update st selfId sv with ⟨r, st2, sv2⟩
      have hsv2 : sv2.time = sv.time := by
        have h0 := update_time st selfId sv
        rw [hu] at h0
        exact h0
      have htp : tickPure st selfId sv.time = (r, st2) := by
        have h1 := update_fst st selfId sv
        have h2 := update_snd st selfId sv
        rw [hu] at h1 h2
        rw [Prod.ext_iff]
        exact ⟨h1.symm, h2.symm⟩
      cases r with
      | RemoveIt =>
        have hred : updateLoop selfId (i :: rest) sts sv ch =
            updateLoop selfId rest (setSlot sts i none) sv2 true := by
          simp only [updateLoop, hslot, hu]
        obtain ⟨iht, ihc, ihs⟩ := ih hndr (setSlot sts i none) sv2 true
        rw [hred]
        refine ⟨by rw [iht, hsv2], ?_, ?_⟩
        · rw [ihc]
          have hrem : slotRemoved selfId sv.time (getSlot sts i) = true := by
            simp [slotRemoved, hslot, htp]
          have hagree : ∀ k ∈ rest,
              slotRemoved selfId sv2.time (getSlot (setSlot sts i none) k) =
                slotRemoved selfId sv.time (getSlot sts k) := by
            intro k hk
            have hk_ne : k ≠ i := fun h => hi (h ▸ hk)
            rw [getSlot_setSlot_ne sts i k none hk_ne, hsv2]
          rw [list_any_congr _ _ rest hagree]
          simp [List.any_cons, hrem]
        · intro j
          rw [ihs j, hsv2]
          by_cases hj : j.val ∈ rest
          · have hji : j.val ≠ i := fun h => hi (h ▸ hj)
            simp [hj, List.mem_cons, setSlot_apply, hji]
          · by_cases hji : j.val = i
            · have hirest : i ∉ rest := hi
              simp [hj, hji, List.mem_cons, setSlot_apply, hstsj, tickSlot, htp,
                getSlot_eq_of_val sts j i hji, hirest,
                ((getSlot_eq_of_val sts j i hji).symm).trans hslot]
            · simp [hj, hji, List.mem_cons, setSlot_apply]
      | KeepIt =>
        have hred : updateLoop selfId (i :: rest) sts sv ch =
            updateLoop selfId rest (setSlot sts i (some st2)) sv2 ch := by
          simp only [updateLoop, hslot, hu]
        obtain ⟨iht, ihc, ihs⟩ := ih hndr (setSlot sts i (some st2)) sv2 ch
        rw [hred]
        refine ⟨by rw [iht, hsv2], ?_, ?_⟩
        · rw [ihc]
          have hrem : slotRemoved selfId sv.time (getSlot sts i) = false := by
            simp [slotRemoved, hslot, htp]
          have hagree : ∀ k ∈ rest,
              slotRemoved selfId sv2.time (getSlot (setSlot sts i (some st2)) k) =
                slotRemoved selfId sv.time (getSlot sts k) := by
            intro k hk
            have hk_ne : k ≠ i := fun h => hi (h ▸ hk)
            rw [getSlot_setSlot_ne sts i k (some st2) hk_ne, hsv2]
          rw [list_any_congr _ _ rest hagree]
          simp [List.any_cons, hrem]
        · intro j
          rw [ihs j, hsv2]
          by_cases hj : j.val ∈ rest
          · have hji : j.val ≠ i := fun h => hi (h ▸ hj)
            simp [hj, List.mem_cons, setSlot_apply, hji]
          · by_cases hji : j.val = i
            · have hirest : i ∉ rest := hi
              simp [hj, hji, List.mem_cons, setSlot_apply, hstsj, tickSlot, htp,
                ((getSlot_eq_of_val sts j i hji).symm).trans hslot, hirest]
            · simp [hj, hji, List.mem_cons, setSlot_apply]

/-! ### Characterization of the backward compaction scan -/

/-- The compaction scan never grows the mark. -/
theorem shrinkFfi_le (sts : Slots) (n : Nat) : shrinkFfi sts n ≤ n := by
  induction n with
  | zero => simp [shrinkFfi]
  | succ m ih =>
    rw [shrinkFfi]
    split
    · exact Nat.le_trans ih (Nat.le_succ m)
    · exact Nat.le_refl _

/-- The compaction scan never drops the mark below the main-region size. -/
theorem shrinkFfi_ge (sts : Slots) (n : Nat) (h : MAINSTATUSES_COUNT ≤ n) :
    MAINSTATUSES_COUNT ≤ shrinkFfi sts n := by
  induction n with
  | zero => exact absurd h (by decide)
  | succ m ih =>
    rw [shrinkFfi]
    split
    · rename_i hcond
      exact ih (Nat.lt_succ_iff.mp hcond.1)
    · exact h

/-- Every slot the compaction scan walked past is empty. -/
theorem shrinkFfi_none_between (sts : Slots) (n : Nat) :
    ∀ i, shrinkFfi sts n ≤ i → i < n → getSlot sts i = none := by
  induction n with
  | zero => intro i _ hi; exact absurd hi (Nat.not_lt_zero i)
  | succ m ih =>
    intro i hge hlt
    rw [shrinkFfi] at hge
    revert hge
    split
    · rename_i hcond
      intro hge
      rcases Nat.lt_succ_iff_lt_or_eq.mp hlt with hlt2 | heq
      · exact ih i hge hlt2
      · exact heq ▸ hcond.2
    · intro hge
      exact absurd hlt (Nat.not_lt_of_le hge)

/-- The compaction scan stops at the main-region size or just above an
occupied slot. -/
theorem shrinkFfi_stop (sts : Slots) (n : Nat) (h : MAINSTATUSES_COUNT ≤ n) :
    shrinkFfi sts n = MAINSTATUSES_COUNT ∨ getSlot sts (shrinkFfi sts n - 1) ≠ none := by
  induction n with
  | zero => exact absurd h (by decide)
  | succ m ih =>
    rw [shrinkFfi]
    split
    · rename_i hcond
      exact ih (Nat.lt_succ_iff.mp hcond.1)
    · rename_i hcond
      rcases Nat.lt_or_ge MAINSTATUSES_COUNT (m + 1) with hlt | hge
      · right
        intro hnone
        exact hcond ⟨hlt, by simpa using hnone⟩
      · left
        exact Nat.le_antisymm hge h

/-! ### Invariant preservation -/

/-- `add` preserves the container invariant. -/
theorem inv_add (s : Statuses) (st : Status) (h : StatusesInvariant s) :
    StatusesInvariant (Statuses.add s st) := by
  obtain ⟨h3, h32, hempty⟩ := h
  unfold Statuses.add
  split
  · exact ⟨h3, h32, hempty⟩
  · rename_i hge
    have hlt2 : s.first_free_index < STATUS_ARRAY_SIZE := by omega
    refine ⟨by simp; omega, by simp; omega, ?_⟩
    intro i hi
    simp only [setSlot_apply]
    simp only [Statuses.first_free_index] at hi
    rw [if_neg (by omega)]
    exact hempty i (by omega)

/-- `switch_mounted` preserves the container invariant. -/
theorem inv_switch_mounted (s : Statuses) (h : StatusesInvariant s) :
    StatusesInvariant (Statuses.switch_mounted s) := by
  obtain ⟨h3, h32, hempty⟩ := h
  refine ⟨h3, h32, ?_⟩
  intro i hi
  have hi2 : s.first_free_index ≤ i.val := hi
  have h3n : 3 ≤ s.first_free_index := h3
  simp only [Statuses.switch_mounted, setSlot_apply]
  have hne : i.val ≠ MainStatuses.Mounted.ord := by
    simp only [MainStatuses.ord]
    omega
  rw [if_neg hne]
  exact hempty i hi

/-- `add_poison` preserves the container invariant. -/
theorem inv_add_poison (s : Statuses) (c : Entity) (a b : Time) (h : StatusesInvariant s) :
    StatusesInvariant (Statuses.add_poison s c a b) := by
  obtain ⟨h3, h32, hempty⟩ := h
  refine ⟨h3, h32, ?_⟩
  intro i hi
  have hi2 : s.first_free_index ≤ i.val := hi
  have h3n : 3 ≤ s.first_free_index := h3
  simp only [Statuses.add_poison, setSlot_apply]
  have hne : i.val ≠ MainStatuses.Poison.ord := by
    simp only [MainStatuses.ord]
    omega
  rw [if_neg hne]
  exact hempty i hi

/-- `remove_main_status` preserves the container invariant. -/
theorem inv_remove_main (s : Statuses) (m : MainStatuses) (h : StatusesInvariant s) :
    StatusesInvariant (Statuses.remove_main_status s m) := by
  obtain ⟨h3, h32, hempty⟩ := h
  refine ⟨h3, h32, ?_⟩
  intro i hi
  have hi2 : s.first_free_index ≤ i.val := hi
  have h3n : 3 ≤ s.first_free_index := h3
  simp only [Statuses.remove_main_status, setSlot_apply]
  have hord : MainStatuses.ord m < 3 := by cases m <;> decide
  have hne : i.val ≠ MainStatuses.ord m := by omega
  rw [if_neg hne]
  exact hempty i hi

/-- `remove` preserves the container invariant. -/
theorem inv_remove (s : Statuses) (c : StatusType) (h : StatusesInvariant s) :
    StatusesInvariant (Statuses.remove s c) := by
  obtain ⟨h3, h32, hempty⟩ := h
  refine ⟨h3, h32, ?_⟩
  intro i hi
  simp only [Statuses.remove]
  rw [removeLoop_spec c (idxs s.first_free_index) (idxs_nodup _) s.statuses i]
  split
  · rfl
  · exact hempty i hi

/-- `remove_all` preserves the container invariant. -/
theorem inv_remove_all (s : Statuses) (h : StatusesInvariant s) :
    StatusesInvariant (Statuses.remove_all s) := by
  obtain ⟨h3, h32, hempty⟩ := h
  refine ⟨Nat.le_refl _, (by decide : MAINSTATUSES_COUNT ≤ STATUS_ARRAY_SIZE), ?_⟩
  intro i hi
  simp only [Statuses.remove_all]
  rw [clearLoop_spec (idxs s.first_free_index) s.statuses i]
  split
  · rfl
  · rename_i hmem
    rw [mem_idxs] at hmem
    push_neg at hmem
    rcases Nat.lt_or_ge i.val s.first_free_index with hlt | hge
    · exact absurd i.isLt (Nat.not_lt.mpr (hmem hlt))
    · exact hempty i hge

/-- `update` (the tick pass) preserves the container invariant. -/
theorem inv_tick (s : Statuses) (selfId : Entity) (sv : SystemVars)
    (h : StatusesInvariant s) :
    StatusesInvariant (Statuses.update s selfId sv).1 := by
  obtain ⟨h3, h32, hempty⟩ := h
  obtain ⟨-, -, hslots⟩ :=
    updateLoop_spec selfId (idxs s.first_free_index) (idxs_nodup _) s.statuses sv false
  refine ⟨shrinkFfi_ge _ _ h3, Nat.le_trans (shrinkFfi_le _ _) h32, ?_⟩
  intro i hi
  simp only [Statuses.update] at hi ⊢
  rcases Nat.lt_or_ge i.val s.first_free_index with hlt | hge
  · have hnone := shrinkFfi_none_between
      (updateLoop selfId (idxs s.first_free_index) s.statuses sv false).1
      s.first_free_index i.val hi hlt
    rw [getSlot_eq_of_val _ i i.val rfl] at hnone
    exact hnone
  · rw [hslots i, if_neg]
    · exact hempty i hge
    · rw [mem_idxs]
      omega

/-- Every container mutation preserves the invariant. -/
theorem inv_applyStatusOp (s : Statuses) (op : StatusOp) (h : StatusesInvariant s) :
    StatusesInvariant (applyStatusOp s op) := by
  cases op with
  | add st => exact inv_add s st h
  | add_poison c a b => exact inv_add_poison s c a b h
  | switch_mounted => exact inv_switch_mounted s h
  | remove c => exact inv_remove s c h
  | remove_main m => exact inv_remove_main s m h
  | remove_all => exact inv_remove_all s h
  | tick selfId sv => exact inv_tick s selfId sv h

/-! ### Secondary-slot counting -/

/-- A within-capacity `add` occupies exactly one further secondary slot. -/
theorem secondaryCount_add (s : Statuses) (st : Status) (h : StatusesInvariant s)
    (hlt : s.first_free_index < STATUS_ARRAY_SIZE) :
    secondaryCount (Statuses.add s st) = secondaryCount s + 1 := by
  obtain ⟨h3, h32, hempty⟩ := h
  have hadd : Statuses.add s st =
      { s with
        statuses := setSlot s.statuses s.first_free_index (some st),
        first_free_index := s.first_free_index + 1 } := by
    unfold Statuses.add
    rw [if_neg (by omega)]
  rw [hadd]
  unfold secondaryCount
  have hins :
      Finset.filter
        (fun i : Fin STATUS_ARRAY_SIZE =>
          MAINSTATUSES_COUNT ≤ i.val ∧
            ((setSlot s.statuses s.first_free_index (some st)) i).isSome = true)
        Finset.univ =
      insert (⟨s.first_free_index, hlt⟩ : Fin STATUS_ARRAY_SIZE)
        (Finset.filter
          (fun i : Fin STATUS_ARRAY_SIZE =>
            MAINSTATUSES_COUNT ≤ i.val ∧ (s.statuses i).isSome = true)
          Finset.univ) := by
    ext i
    simp only [Finset.mem_filter, Finset.mem_univ, Finset.mem_insert, true_and,
      setSlot_apply]
    by_cases hji : i.val = s.first_free_index
    · have : i = (⟨s.first_free_index, hlt⟩ : Fin STATUS_ARRAY_SIZE) := Fin.ext hji
      simp [hji, this, h3]
    · have : i ≠ (⟨s.first_free_index, hlt⟩ : Fin STATUS_ARRAY_SIZE) := by
        intro heq
        exact hji (by rw [heq])
      simp [hji, this]
  rw [hins, Finset.card_insert_of_not_mem]
  simp only [Finset.mem_filter, Finset.mem_univ, true_and, not_and]
  intro _
  rw [hempty ⟨s.first_free_index, hlt⟩ (Nat.le_refl _)]
  simp

/-- `remove_all` leaves no occupied secondary slot. -/
theorem secondaryCount_remove_all (s : Statuses) (h : StatusesInvariant s) :
    secondaryCount (Statuses.remove_all s) = 0 := by
  obtain ⟨h3, h32, hempty⟩ := h
  unfold secondaryCount
  rw [Finset.card_eq_zero, Finset.filter_eq_empty_iff]
  intro i _
  simp only [Statuses.remove_all]
  rw [clearLoop_spec (idxs s.first_free_index) s.statuses i]
  intro hcon
  rcases hcon with ⟨-, hsome⟩
  revert hsome
  split
  · simp
  · rename_i hmem
    rw [mem_idxs] at hmem
    push_neg at hmem
    rcases Nat.lt_or_ge i.val s.first_free_index with hlt | hge
    · exact absurd i.isLt (Nat.not_lt.mpr (hmem hlt))
    · rw [hempty i hge]
      simp

/-- Running an add/clear sequence within capacity: the secondary-slot count
follows the net tally and the invariant is maintained. -/
theorem seq_count (ops : List AROp) :
    ∀ s : Statuses, StatusesInvariant s → capOk s ops = true →
      secondaryCount (applySeq s ops) = netCount (secondaryCount s) ops ∧
      StatusesInvariant (applySeq s ops) := by
  induction ops with
  | nil => intro s h _; exact ⟨rfl, h⟩
  | cons op rest ih =>
    intro s h hcap
    cases op with
    | add st =>
      rw [capOk, Bool.and_eq_true, decide_eq_true_iff] at hcap
      have hinv2 : StatusesInvariant (Statuses.add s st) := inv_add s st h
      obtain ⟨hc, hi⟩ := ih (Statuses.add s st) hinv2 hcap.2
      refine ⟨?_, hi⟩
      rw [applySeq, applyAR, hc, secondaryCount_add s st h hcap.1]
      rfl
    | remove_all =>
      rw [capOk] at hcap
      have hinv2 : StatusesInvariant (Statuses.remove_all s) := inv_remove_all s h
      obtain ⟨hc, hi⟩ := ih (Statuses.remove_all s) hinv2 hcap
      refine ⟨?_, hi⟩
      rw [applySeq, applyAR, hc, secondaryCount_remove_all s h]
      rfl

/-! ### Claim theorems -/

/-- Claim C1: on a `StatusSet` whose reserved Poison slot already holds a
poison instance, `add_poison(caster, started, until)` leaves that slot with
exactly one fresh poison instance whose caster is the new caster, whose
expiry is `max(current expiry, until)` — so an earlier incoming `until`
never shortens the stored expiry — and whose next tick is `started + 1s`. -/
theorem C1_add_poison_merge (s : Statuses) (c0 caster : Entity)
    (s0 u0 n0 started untl : Time)
    (h : getSlot s.statuses MainStatuses.Poison.ord = some (Status.poison c0 s0 u0 n0)) :
    getSlot (Statuses.add_poison s caster started untl).statuses MainStatuses.Poison.ord =
      some (Status.poison caster started (max u0 untl) (Time.add_seconds started 1)) ∧
    u0 ≤ max u0 untl ∧ untl ≤ max u0 untl := by
  refine ⟨?_, le_max_left _ _, le_max_right _ _⟩
  simp only [Statuses.add_poison, h]
  rw [getSlot_setSlot_self _ _ _ (by decide : MainStatuses.Poison.ord < STATUS_ARRAY_SIZE)]

/-- Concrete poison container: one poison already active with expiry 10. -/
def ex1 : Statuses := Statuses.add_poison Statuses.new 5 0 10

/-- Witness for C1: reapplying with the earlier expiry 4 keeps expiry 10. -/
theorem C1_add_poison_merge_witness :
    getSlot (Statuses.add_poison ex1 6 3 4).statuses MainStatuses.Poison.ord =
      some (Status.poison 6 3 (max 10 4) (Time.add_seconds 3 1)) ∧
    (10 : ℚ) ≤ max 10 4 ∧ (4 : ℚ) ≤ max 10 4 :=
  C1_add_poison_merge ex1 5 6 0 10 (Time.add_seconds 0 1) 3 4 (by rfl)

/-- Concrete poison container for the `remove` counterexample. -/
def ex3 : Statuses := Statuses.add_poison Statuses.new 7 0 10

/-- Claim C3 counterexample: `remove(Harmful)` clears the occupied reserved
Poison slot (a main slot, index below the main-region size), refuting the
claim that every main slot is left unchanged. -/
theorem C3_remove_counterexample :
    (getSlot ex3.statuses MainStatuses.Poison.ord).isSome = true ∧
    MainStatuses.Poison.ord < MAINSTATUSES_COUNT ∧
    getSlot (Statuses.remove ex3 StatusType.Harmful).statuses MainStatuses.Poison.ord =
      none := by
  decide

/-- Claim C3 as amended: `remove(c)` clears exactly those slots below the
high-water mark — main slots included — whose effect's classification equals
`c`; slots at or beyond the mark keep their contents and the mark itself is
unchanged. -/
theorem C3_remove_amended (s : Statuses) (c : StatusType) (i : Fin STATUS_ARRAY_SIZE) :
    (Statuses.remove s c).first_free_index = s.first_free_index ∧
    (Statuses.remove s c).statuses i =
      (if i.val < s.first_free_index ∧ statusMatchesTyp (s.statuses i) c = true
       then none else s.statuses i) := by
  refine ⟨rfl, ?_⟩
  simp only [Statuses.remove]
  rw [removeLoop_spec c (idxs s.first_free_index) (idxs_nodup _) s.statuses i]
  by_cases h1 : i.val < s.first_free_index ∧ statusMatchesTyp (s.statuses i) c = true
  · rw [if_pos h1, if_pos ⟨(mem_idxs _ _).mpr ⟨h1.1, i.isLt⟩, h1.2⟩]
  · rw [if_neg h1, if_neg]
    intro hcon
    exact h1 ⟨((mem_idxs _ _).mp hcon.1).1, hcon.2⟩

/-- Claim C5: with the mark at the slot limit, `add` is rejected and the
whole container (every slot and the mark) is unchanged; with the mark below
the limit, the handle is stored at the mark, the mark advances by one and
every other slot keeps its contents. -/
theorem C5_add_capacity (s : Statuses) (st : Status) :
    (s.first_free_index = STATUS_ARRAY_SIZE → Statuses.add s st = s) ∧
    (s.first_free_index < STATUS_ARRAY_SIZE →
      getSlot (Statuses.add s st).statuses s.first_free_index = some st ∧
      (Statuses.add s st).first_free_index = s.first_free_index + 1 ∧
      ∀ j : Fin STATUS_ARRAY_SIZE, j.val ≠ s.first_free_index →
        (Statuses.add s st).statuses j = s.statuses j) := by
  constructor
  · intro heq
    unfold Statuses.add
    rw [if_pos (Nat.le_of_eq heq.symm)]
  · intro hlt
    have hne : ¬ s.first_free_index ≥ STATUS_ARRAY_SIZE := by omega
    unfold Statuses.add
    rw [if_neg hne]
    refine ⟨getSlot_setSlot_self _ _ _ hlt, rfl, ?_⟩
    intro j hj
    simp only [setSlot_apply]
    rw [if_neg hj]

/-- A container whose mark sits at the slot limit. -/
def exFull : Statuses :=
  { statuses := fun _ => none, first_free_index := STATUS_ARRAY_SIZE }

/-- Witness for C5: the overflow add is the identity; a fresh container
stores the handle at the mark and leaves slot 5 alone. -/
theorem C5_add_capacity_witness :
    Statuses.add exFull Status.mounted = exFull ∧
    getSlot (Statuses.add Statuses.new Status.mounted).statuses
      Statuses.new.first_free_index = some Status.mounted ∧
    (Statuses.add Statuses.new Status.mounted).statuses 5 = Statuses.new.statuses 5 :=
  ⟨(C5_add_capacity exFull Status.mounted).1 rfl,
   ((C5_add_capacity Statuses.new Status.mounted).2 (by decide)).1,
   ((C5_add_capacity Statuses.new Status.mounted).2 (by decide)).2.2 5 (by decide)⟩

/-- Claim C7: a poison tick with `next_tick <= now < until` emits exactly one
damage event and moves the next tick to `now + 1s`; once `until <= now` it
returns `RemoveIt` without emitting anything. -/
theorem C7_poison_update (c : Entity) (s u n : Time) (selfId : Entity) (sv : SystemVars) :
    (u ≤ sv.time →
      Status.update (Status.poison c s u n) selfId sv =
        (StatusUpdateResult.RemoveIt, Status.poison c s u n, sv)) ∧
    (n ≤ sv.time → sv.time < u →
      Status.update (Status.poison c s u n) selfId sv =
        (StatusUpdateResult.KeepIt,
          Status.poison c s u (Time.add_seconds sv.time 1),
          { sv with attacks := sv.attacks ++ [⟨c, selfId, AttackType.Poison 30⟩] })) := by
  constructor
  · intro h
    simp [Status.update, Time.is_earlier_than, h]
  · intro h1 h2
    have hu : ¬ (u ≤ sv.time) := not_le.mpr h2
    simp [Status.update, Time.is_earlier_than, hu, h1]

/-- Witness for C7: at time 6 a poison with next tick 5 and expiry 10 emits
one damage event; at time 12 the same poison is removed. -/
theorem C7_poison_update_witness :
    Status.update (Status.poison 1 0 10 5) 2 ⟨6, []⟩ =
      (StatusUpdateResult.KeepIt, Status.poison 1 0 10 (Time.add_seconds 6 1),
        ⟨6, [⟨1, 2, AttackType.Poison 30⟩]⟩) ∧
    Status.update (Status.poison 1 0 10 5) 2 ⟨12, []⟩ =
      (StatusUpdateResult.RemoveIt, Status.poison 1 0 10 5, ⟨12, []⟩) :=
  ⟨(C7_poison_update 1 0 10 5 2 ⟨6, []⟩).2 (by decide) (by decide),
   (C7_poison_update 1 0 10 5 2 ⟨12, []⟩).1 (by decide)⟩

/-- Claim C8: `switch_mounted` toggles the occupancy of the reserved Mounted
slot, and two consecutive calls restore the original occupancy. -/
theorem C8_switch_mounted_toggle (s : Statuses) :
    Statuses.is_mounted (Statuses.switch_mounted s) = !(Statuses.is_mounted s) ∧
    Statuses.is_mounted (Statuses.switch_mounted (Statuses.switch_mounted s)) =
      Statuses.is_mounted s := by
  have key : ∀ t : Statuses,
      Statuses.is_mounted (Statuses.switch_mounted t) = !(Statuses.is_mounted t) := by
    intro t
    simp only [Statuses.is_mounted, Statuses.switch_mounted]
    rw [getSlot_setSlot_self _ _ _ (by decide : MainStatuses.Mounted.ord < STATUS_ARRAY_SIZE)]
    cases h : (getSlot t.statuses MainStatuses.Mounted.ord).isSome <;> simp [h]
  exact ⟨key s, by rw [key _, key s, Bool.not_not]⟩

/-- One channel of the tint fold is the product of that channel over the
folded effects. -/
theorem foldl_color_channel (f : Color → ℚ) (hf : ∀ x y, f (Color.mul x y) = f x * f y)
    (l : List Status) :
    ∀ c : Color,
      f (l.foldl (fun ret st => Color.mul ret (Status.get_render_color st)) c) =
        f c * (l.map (fun st => f (Status.get_render_color st))).prod := by
  induction l with
  | nil => intro c; simp
  | cons st rest ih =>
    intro c
    simp only [List.foldl_cons, List.map_cons, List.prod_cons]
    rw [ih, hf, mul_assoc]

/-- Container holding an active poison (tint `[1/2, 1, 1/2, 1]`) and a
secondary effect with tint `[1, 1/2, 1, 1]`. -/
def ex9 : Statuses :=
  Statuses.add (Statuses.add_poison Statuses.new 1 0 10)
    (Status.secondary StatusType.Supportive ⟨1, 1/2, 1, 1⟩ none false)

/-- Claim C9: the aggregate render tint is the component-wise product, over
all four channels, of the active effects' tints starting from opaque white;
zero active effects give white, and the two tints `[1/2, 1, 1/2, 1]` and
`[1, 1/2, 1, 1]` combine to `[1/2, 1/2, 1/2, 1]`. -/
theorem C9_render_tint_product :
    (∀ s : Statuses,
      (Statuses.calc_render_color s).r =
        ((activeList s).map (fun st => (Status.get_render_color st).r)).prod ∧
      (Statuses.calc_render_color s).g =
        ((activeList s).map (fun st => (Status.get_render_color st).g)).prod ∧
      (Statuses.calc_render_color s).b =
        ((activeList s).map (fun st => (Status.get_render_color st).b)).prod ∧
      (Statuses.calc_render_color s).a =
        ((activeList s).map (fun st => (Status.get_render_color st).a)).prod) ∧
    Statuses.calc_render_color Statuses.new = Color.white ∧
    Statuses.calc_render_color ex9 = ⟨1/2, 1/2, 1/2, 1⟩ := by
  refine ⟨?_, by rfl, ?_⟩
  · intro s
    refine ⟨?_, ?_, ?_, ?_⟩
    · simp only [Statuses.calc_render_color]
      rw [foldl_color_channel Color.r (fun x y => rfl)]
      simp [Color.white]
    · simp only [Statuses.calc_render_color]
      rw [foldl_color_channel Color.g (fun x y => rfl)]
      simp [Color.white]
    · simp only [Statuses.calc_render_color]
      rw [foldl_color_channel Color.b (fun x y => rfl)]
      simp [Color.white]
    · simp only [Statuses.calc_render_color]
      rw [foldl_color_channel Color.a (fun x y => rfl)]
      simp [Color.white]
  · have hs : Statuses.calc_render_color ex9 =
        Color.mul (Color.mul Color.white ⟨1/2, 1, 1/2, 1⟩) ⟨1, 1/2, 1, 1⟩ := rfl
    rw [hs]
    simp [Color.mul, Color.white]

/-- Claim C10: each main-slot mutation touches only its own reserved slot:
the mark is unchanged and every other slot keeps its contents. -/
theorem C10_main_slot_isolation (s : Statuses) :
    ((Statuses.switch_mounted s).first_free_index = s.first_free_index ∧
      ∀ j : Fin STATUS_ARRAY_SIZE, j.val ≠ MainStatuses.Mounted.ord →
        (Statuses.switch_mounted s).statuses j = s.statuses j) ∧
    (∀ (c : Entity) (a b : Time),
      (Statuses.add_poison s c a b).first_free_index = s.first_free_index ∧
      ∀ j : Fin STATUS_ARRAY_SIZE, j.val ≠ MainStatuses.Poison.ord →
        (Statuses.add_poison s c a b).statuses j = s.statuses j) ∧
    (∀ m : MainStatuses,
      (Statuses.remove_main_status s m).first_free_index = s.first_free_index ∧
      ∀ j : Fin STATUS_ARRAY_SIZE, j.val ≠ MainStatuses.ord m →
        (Statuses.remove_main_status s m).statuses j = s.statuses j) := by
  refine ⟨⟨rfl, ?_⟩, fun c a b => ⟨rfl, ?_⟩, fun m => ⟨rfl, ?_⟩⟩ <;>
    · intro j hj
      simp only [Statuses.switch_mounted, Statuses.add_poison,
        Statuses.remove_main_status, setSlot_apply]
      rw [if_neg hj]

/-- Witness for C10: each main-slot mutation on a fresh container leaves a
slot of a different index unchanged. -/
theorem C10_main_slot_isolation_witness :
    (Statuses.switch_mounted Statuses.new).statuses 5 = Statuses.new.statuses 5 ∧
    (Statuses.add_poison Statuses.new 1 0 10).statuses 1 = Statuses.new.statuses 1 ∧
    (Statuses.remove_main_status Statuses.new MainStatuses.Stun).statuses 0 =
      Statuses.new.statuses 0 :=
  ⟨(C10_main_slot_isolation Statuses.new).1.2 5 (by decide),
   ((C10_main_slot_isolation Statuses.new).2.1 1 0 10).2 1 (by decide),
   ((C10_main_slot_isolation Statuses.new).2.2 MainStatuses.Stun).2 0 (by decide)⟩

/-- Container with two completion-reporting secondary effects: expiry 10 with
fraction 1/4 in slot 3, expiry 20 with fraction 3/4 in slot 4. -/
def ex2 : Statuses :=
  Statuses.add
    (Statuses.add Statuses.new
      (Status.secondary StatusType.Harmful Color.white (some (10, 1/4)) false))
    (Status.secondary StatusType.Harmful Color.white (some (20, 3/4)) false)

/-- Claim C2 refuted on the code (the code contradicts the function's own
name): over two reporting effects with expiries 10 and 20 carrying fractions
1/4 and 3/4, the query returns 1/4, the fraction of the earliest expiry 10,
not 3/4, the fraction of the strictly later expiry 20 — the fold replaces
its candidate exactly when the current candidate ends later than the new
one, so the earliest-expiring effect survives. -/
theorem C2_largest_fraction_code_result :
    Statuses.calc_largest_remaining_status_time_percent ex2 0 = some (1/4) ∧
    ¬ Statuses.calc_largest_remaining_status_time_percent ex2 0 = some (3/4) := by
  have h : Statuses.calc_largest_remaining_status_time_percent ex2 0 = some (1/4) := rfl
  refine ⟨h, ?_⟩
  rw [h]
  intro hcon
  rw [Option.some.injEq] at hcon
  norm_num at hcon

/-- Claim C4: every container mutation preserves the invariant (mark between
the main-region size and the slot limit, all slots at or beyond the mark
empty), and any within-capacity add/clear sequence leaves the secondary-slot
count at the net tally with the final mark within the slot limit. -/
theorem C4_invariant_preservation :
    (∀ (s : Statuses) (op : StatusOp),
      StatusesInvariant s → StatusesInvariant (applyStatusOp s op)) ∧
    (∀ (ops : List AROp) (s : Statuses),
      StatusesInvariant s → capOk s ops = true →
        secondaryCount (applySeq s ops) = netCount (secondaryCount s) ops ∧
        (applySeq s ops).first_free_index ≤ STATUS_ARRAY_SIZE) := by
  refine ⟨inv_applyStatusOp, ?_⟩
  intro ops s h hcap
  obtain ⟨hc, hinv⟩ := seq_count ops s h hcap
  exact ⟨hc, hinv.2.1⟩

/-- Witness for C4: the invariant survives a toggle on a fresh container,
and an add followed by a clear lands on the net tally. -/
theorem C4_invariant_witness :
    StatusesInvariant (applyStatusOp Statuses.new StatusOp.switch_mounted) ∧
    secondaryCount (applySeq Statuses.new [AROp.add Status.mounted, AROp.remove_all]) =
      netCount (secondaryCount Statuses.new) [AROp.add Status.mounted, AROp.remove_all] :=
  ⟨C4_invariant_preservation.1 Statuses.new StatusOp.switch_mounted (by decide),
   (C4_invariant_preservation.2 [AROp.add Status.mounted, AROp.remove_all]
      Statuses.new (by decide) (by decide)).1⟩

/-- Claim C6: the tick pass maps every slot below the mark through its
per-effect tick (clearing exactly the slots whose effect answered
`RemoveIt`), leaves slots at or beyond the mark untouched, shrinks the mark
past all trailing empty slots but never below the main-region size (stopping
at the main-region size or just above an occupied slot), and returns true
exactly when some occupied slot got cleared. -/
theorem C6_update_pass (s : Statuses) (selfId : Entity) (sv : SystemVars)
    (h : StatusesInvariant s) :
    (∀ i : Fin STATUS_ARRAY_SIZE, i.val < s.first_free_index →
      (Statuses.update s selfId sv).1.statuses i = tickSlot selfId sv.time (s.statuses i)) ∧
    (∀ i : Fin STATUS_ARRAY_SIZE, s.first_free_index ≤ i.val →
      (Statuses.update s selfId sv).1.statuses i = s.statuses i) ∧
    MAINSTATUSES_COUNT ≤ (Statuses.update s selfId sv).1.first_free_index ∧
    (Statuses.update s selfId sv).1.first_free_index ≤ s.first_free_index ∧
    (∀ i : Fin STATUS_ARRAY_SIZE,
      (Statuses.update s selfId sv).1.first_free_index ≤ i.val →
      (Statuses.update s selfId sv).1.statuses i = none) ∧
    ((Statuses.update s selfId sv).1.first_free_index = MAINSTATUSES_COUNT ∨
      getSlot (Statuses.update s selfId sv).1.statuses
        ((Statuses.update s selfId sv).1.first_free_index - 1) ≠ none) ∧
    ((Statuses.update s selfId sv).2.2 = true ↔
      ∃ i : Fin STATUS_ARRAY_SIZE, i.val < s.first_free_index ∧
        (s.statuses i).isSome = true ∧
        (Statuses.update s selfId sv).1.statuses i = none) := by
  obtain ⟨h3, h32, hempty⟩ := h
  obtain ⟨ht, hch, hslots⟩ :=
    updateLoop_spec selfId (idxs s.first_free_index) (idxs_nodup _) s.statuses sv false
  simp only [Statuses.update]
  refine ⟨?_, ?_, ?_, ?_, ?_, ?_, ?_⟩
  · intro i hi
    rw [hslots i, if_pos ((mem_idxs _ _).mpr ⟨hi, i.isLt⟩)]
  · intro i hi
    rw [hslots i, if_neg]
    intro hmem
    exact absurd ((mem_idxs _ _).mp hmem).1 (Nat.not_lt.mpr hi)
  · exact shrinkFfi_ge _ _ h3
  · exact shrinkFfi_le _ _
  · intro i hi
    rcases Nat.lt_or_ge i.val s.first_free_index with hlt | hge
    · have hnone := shrinkFfi_none_between
        (updateLoop selfId (idxs s.first_free_index) s.statuses sv false).1
        s.first_free_index i.val hi hlt
      rw [getSlot_eq_of_val _ i i.val rfl] at hnone
      exact hnone
    · rw [hslots i, if_neg]
      · exact hempty i hge
      · intro hmem
        exact absurd ((mem_idxs _ _).mp hmem).1 (Nat.not_lt.mpr hge)
  · exact shrinkFfi_stop _ _ h3
  · constructor
    · intro htrue
      rw [hch, Bool.false_or] at htrue
      obtain ⟨k, hk_mem, hk⟩ := List.any_eq_true.mp htrue
      obtain ⟨hkf, hk32⟩ := (mem_idxs _ _).mp hk_mem
      cases hgs : getSlot s.statuses k with
      | none =>
        rw [hgs] at hk
        simp [slotRemoved] at hk
      | some st =>
        have hsts : s.statuses ⟨k, hk32⟩ = some st :=
          ((getSlot_eq_of_val s.statuses ⟨k, hk32⟩ k rfl).symm).trans hgs
        refine ⟨⟨k, hk32⟩, hkf, by rw [hsts]; rfl, ?_⟩
        rw [hslots ⟨k, hk32⟩,
          if_pos (show (⟨k, hk32⟩ : Fin STATUS_ARRAY_SIZE).val ∈ idxs s.first_free_index
            from hk_mem)]
        rw [hgs] at hk
        simp only [slotRemoved, decide_eq_true_eq] at hk
        rcases htp : tickPure st selfId sv.time with ⟨r, st2⟩
        rw [htp] at hk
        simp only at hk
        subst hk
        simp [tickSlot, hsts, htp]
    · rintro ⟨i, hlt, hsome, hnone⟩
      rw [hch, Bool.false_or]
      apply List.any_eq_true.mpr
      refine ⟨i.val, (mem_idxs _ _).mpr ⟨hlt, i.isLt⟩, ?_⟩
      rw [hslots i, if_pos ((mem_idxs _ _).mpr ⟨hlt, i.isLt⟩)] at hnone
      obtain ⟨st, hst⟩ := Option.isSome_iff_exists.mp hsome
      rw [getSlot_eq_of_val s.statuses i i.val rfl, hst]
      rw [hst] at hnone
      simp only [slotRemoved, decide_eq_true_eq]
      rcases htp : tickPure st selfId sv.time with ⟨r, st2⟩
      cases r with
      | RemoveIt => simp [htp]
      | KeepIt =>
        exfalso
        simp [tickSlot, htp] at hnone

/-- Container with one active poison expiring at 5. -/
def ex6 : Statuses := Statuses.add_poison Statuses.new 9 0 5

/-- Clock already past the poison's expiry, with an empty damage sink. -/
def sv6 : SystemVars := ⟨10, []⟩

/-- Witness for C6: ticking the expired-poison container sends the reserved
Poison slot through its per-effect tick, and the mark stays at or above the
main-region size. -/
theorem C6_update_pass_witness :
    (Statuses.update ex6 1 sv6).1.statuses 2 = tickSlot 1 sv6.time (ex6.statuses 2) ∧
    MAINSTATUSES_COUNT ≤ (Statuses.update ex6 1 sv6).1.first_free_index :=
  ⟨(C6_update_pass ex6 1 sv6 (by decide)).1 2 (by decide),
   (C6_update_pass ex6 1 sv6 (by decide)).2.2.1⟩
